import Mathlib

/-!
Shallow embedding of the `hoard` repository (content-addressed hardlink
store with a state reconciler).

Modelling conventions:
* Rust `String`/`str` is modelled as `List Char` (`Str`).
* Rust `Path`/`PathBuf` is modelled as a list of components (`FsPath`),
  matching `Path::components`; `starts_with` is list-prefix, `Ord` is
  componentwise lexicographic, and `to_string_lossy` joins with `'/'`.
* SHA-256 itself is abstracted as a parameter `sha : List Nat → List Nat`
  producing the 32 digest bytes; the hex encoding performed by
  `hex::encode` is modelled concretely (`hexChars`).
* Filesystem state for the link primitive and the change executor is a
  finite map from paths to inode numbers plus a set of directories (`FS`).
  Directory walks (`WalkDir`) are modelled by passing the list of walked
  entries explicitly.
-/

/-- Rust `String` / `str`: a list of characters. -/
abbrev Str := List Char

/-- Rust `Path` / `PathBuf`: a list of path components. -/
abbrev FsPath := List Str

/-- The character class `[a-f0-9]` of the regex in `FileHash::from_str`. -/
def isHexLowerChar (c : Char) : Bool :=
  ('a' ≤ c && c ≤ 'f') || ('0' ≤ c && c ≤ '9')

/-- The regex `^[a-f0-9]{64}$` of `FileHash::from_str`: exactly 64
characters, each lowercase hex. -/
def isHex64 (s : Str) : Bool :=
  s.length == 64 && s.all isHexLowerChar

/-- Model of `hoard::FileHash`: a newtype around the hash string. -/
structure FileHash where
  s : Str
deriving DecidableEq

/-- Model of `FileHash::from_str`: accept exactly the strings matching
`^[a-f0-9]{64}$`, reject everything else. -/
def FileHash.from_str (s : Str) : Option FileHash :=
  if isHex64 s then some ⟨s⟩ else none

/-- One lowercase hex digit, as produced by `hex::encode`. -/
def hexDigitChar (n : Nat) : Char :=
  if n < 10 then Char.ofNat (48 + n) else Char.ofNat (87 + n)

/-- Model of `hex::encode` on a byte list: two lowercase hex digits per byte
(bytes are `u8`, hence the explicit `% 256`). -/
def hexChars : List Nat → Str
  | [] => []
  | b :: bs => hexDigitChar (b % 256 / 16) :: hexDigitChar (b % 16) :: hexChars bs

/-- Model of `FileHash::of`: hash the file's content. The SHA-256 digest is the
abstract parameter `sha`; its hex rendering is concrete. -/
def FileHash.of (sha : List Nat → List Nat) (content : List Nat) : FileHash :=
  ⟨hexChars (sha content)⟩

/-- Model of `Path::to_string_lossy`: join the components with `'/'`. -/
def pathToStr : FsPath → Str
  | [] => []
  | [a] => a
  | a :: rest => a ++ '/' :: pathToStr rest

/-- Model of `FileHash::from_path`: try to parse the whole rendered path as a hash
string, and only on failure fall back to hashing the content. -/
def FileHash.from_path (sha : List Nat → List Nat) (p : FsPath) (content : List Nat) :
    FileHash :=
  match FileHash.from_str (pathToStr p) with
  | some h => h
  | none => FileHash.of sha content

/-- Model of `FileHash::as_path`: `format!("{}/{}", &self.0[0..2], &self.0[2..])`. -/
def FileHash.as_path (h : FileHash) : Str :=
  h.s.take 2 ++ '/' :: h.s.drop 2

/-- Model of `FileObject::new`: take the last two path components, concatenate
second-to-last ++ last, and parse that as a hash. The Rust code indexes
`parts[1]` and would panic on a path with fewer than two components;
that case is modelled as `none`. -/
def FileObject.new (p : FsPath) : Option FileHash :=
  match p.reverse with
  | obj :: pre :: _ => FileHash.from_str (pre ++ obj)
  | _ => none

/-- Filesystem model for the link primitive and the change executor:
regular files (path ↦ inode, a functional map) and existing directories. -/
structure FS where
  files : List (FsPath × Nat)
  dirs : List FsPath
deriving DecidableEq

/-- Inode at path `p` in a functional path-to-inode map. -/
def lookupIno (files : List (FsPath × Nat)) (p : FsPath) : Option Nat :=
  ((files.filter (fun x => decide (x.1 = p))).head?).map (fun x => x.2)

/-- Inode of the regular file at `p`, if any. -/
def lookupFile (fs : FS) (p : FsPath) : Option Nat :=
  lookupIno fs.files p

/-- Model of `Path::exists`: true for files and directories alike. -/
def pathExists (fs : FS) (p : FsPath) : Bool :=
  (lookupFile fs p).isSome || decide (p ∈ fs.dirs)

/-- All prefixes of a path, shortest first (including `[]` and `p`). -/
def pathPrefixes (p : FsPath) : List FsPath :=
  (List.range (p.length + 1)).map (fun k => p.take k)

/-- Add each of `ps` to the directory set, keeping existing entries. -/
def addDirs (dirs : List FsPath) (ps : List FsPath) : List FsPath :=
  ps.foldl (fun ds q => if q ∈ ds then ds else ds ++ [q]) dirs

/-- Model of `fs::create_dir_all`: fails if any prefix of `p` is a regular file,
otherwise makes every prefix a directory. -/
def create_dir_all (fs : FS) (p : FsPath) : Option FS :=
  if (pathPrefixes p).any (fun q => (lookupFile fs q).isSome) then none
  else some { fs with dirs := addDirs fs.dirs (pathPrefixes p) }

/-- Model of `fs::hard_link` (raw): the source must be a regular file, the
destination must not exist, and the destination's parent must be an
existing directory. -/
def hard_link (fs : FS) (src dst : FsPath) : Option FS :=
  match lookupFile fs src with
  | none => none
  | some ino =>
    if pathExists fs dst then none
    else if dst.dropLast ∈ fs.dirs then
      some { fs with files := (dst, ino) :: fs.files }
    else none

/-- Model of `fs::remove_file`: fails when `p` is not a regular file. -/
def removeFile (fs : FS) (p : FsPath) : Option FS :=
  match lookupFile fs p with
  | some _ => some { fs with files := fs.files.filter (fun x => decide (x.1 ≠ p)) }
  | none => none

/-- Model of `hoard::link` (the body of `_link`): ensure the destination's parent
directories, then create / keep / replace the hardlink. Returns whether a
fresh link was created. Reading metadata of a non-file is modelled as an
error, matching the eventual failure of `remove_file` on a directory. -/
def link (fs : FS) (src dst : FsPath) : Option (Bool × FS) :=
  match create_dir_all fs dst.dropLast with
  | none => none
  | some fs1 =>
    if pathExists fs1 dst then
      match lookupFile fs1 src, lookupFile fs1 dst with
      | some srcIno, some dstIno =>
        if srcIno ≠ dstIno then
          match removeFile fs1 dst with
          | some fs2 => (hard_link fs2 src dst).map (fun fs3 => (false, fs3))
          | none => none
        else some (false, fs1)
      | _, _ => none
    else (hard_link fs1 src dst).map (fun fs2 => (true, fs2))

/-- Model of `hoard::ObjectStore`: the objects directory plus the two-keyed map,
modelled as the insertion sequence of (inode, hash) pairs. -/
structure ObjectStore where
  path : FsPath
  objects : List (Nat × FileHash)
deriving DecidableEq

/-- Model of `ObjectStore::get_by_ino` (`MultiMap::get`, last insert wins). -/
def ObjectStore.get_by_ino (st : ObjectStore) (ino : Nat) : Option (Nat × FileHash) :=
  (st.objects.filter (fun x => decide (x.1 = ino))).getLast?

/-- Model of `ObjectStore::get_by_hash` (`MultiMap::get_alt`, last insert wins). -/
def ObjectStore.get_by_hash (st : ObjectStore) (h : FileHash) : Option (Nat × FileHash) :=
  (st.objects.filter (fun x => decide (x.2 = h))).getLast?

/-- Model of `ObjectStore::put`: dedup by inode, then by content hash; only
genuinely new content is linked into the store at `hash.as_path()` and
registered (the hardlink gives the stored copy the source's inode, and
`FileObject::new` re-parses the hash from the destination path). -/
def ObjectStore.put (sha : List Nat → List Nat) (st : ObjectStore) (srcIno : Nat)
    (content : List Nat) : Option (ObjectStore × FileHash) :=
  match st.get_by_ino srcIno with
  | some x => some (st, x.2)
  | none =>
    let hash := FileHash.of sha content
    match st.get_by_hash hash with
    | some _ => some (st, hash)
    | none =>
      let dst : FsPath := st.path ++ [hash.s.take 2, hash.s.drop 2]
      match FileObject.new dst with
      | none => none
      | some h2 => some ({ st with objects := st.objects ++ [(srcIno, h2)] }, hash)

/-- Model of `state::Object`: an entry of the name index. -/
structure Object where
  path : FsPath
  hash : FileHash
  name : Str
  ino : Nat
deriving DecidableEq

/-- Model of `Index::by_name`: collect into a map, later entries override. -/
def byName (objects : List Object) (n : Str) : Option Object :=
  (objects.filter (fun o => decide (o.name = n))).getLast?

/-- Model of `Index::by_ino`: collect into a map, later entries override. -/
def byIno (objects : List Object) (ino : Nat) : Option Object :=
  (objects.filter (fun o => decide (o.ino = ino))).getLast?

/-- Model of `state::ChangeType`. Variant order matters: the derived `Ord` places
`Ignore < Create < Delete < Modify`. -/
inductive ChangeType where
  | Ignore : ChangeType
  | Create : Object → ChangeType
  | Delete : Object → ChangeType
  | Modify : Object → Object → ChangeType
deriving DecidableEq

/-- Model of `state::Change`: a path together with the kind of change. -/
structure Change where
  path : FsPath
  ctype : ChangeType
deriving DecidableEq

/-- Comparator on characters (Rust's byte/char ordering). -/
def cmpChar (a b : Char) : Ordering :=
  if a = b then .eq else if a < b then .lt else .gt

/-- Lexicographic list comparator (Rust's derived `Ord` on sequences). -/
def cmpList (cmp : α → α → Ordering) : List α → List α → Ordering
  | [], [] => .eq
  | [], _ :: _ => .lt
  | _ :: _, [] => .gt
  | a :: as, b :: bs =>
    match cmp a b with
    | .eq => cmpList cmp as bs
    | o => o

/-- Rust `String` ordering. -/
def cmpStr (a b : Str) : Ordering := cmpList cmpChar a b

/-- Rust `PathBuf` ordering: componentwise lexicographic. -/
def cmpPath (a b : FsPath) : Ordering := cmpList cmpStr a b

/-- Comparator on naturals. -/
def cmpNat (a b : Nat) : Ordering :=
  if a = b then .eq else if a < b then .lt else .gt

/-- Derived `Ord` of `Object`: fields in declaration order. -/
def Object.cmp (a b : Object) : Ordering :=
  ((cmpPath a.path b.path).then (cmpStr a.hash.s b.hash.s)).then
    ((cmpStr a.name b.name).then (cmpNat a.ino b.ino))

/-- Derived `Ord` of `ChangeType`: by variant, then by payload. -/
def ChangeType.cmp : ChangeType → ChangeType → Ordering
  | .Ignore, .Ignore => .eq
  | .Ignore, _ => .lt
  | _, .Ignore => .gt
  | .Create a, .Create b => Object.cmp a b
  | .Create _, _ => .lt
  | _, .Create _ => .gt
  | .Delete a, .Delete b => Object.cmp a b
  | .Delete _, _ => .lt
  | _, .Delete _ => .gt
  | .Modify a b, .Modify c d => (Object.cmp a c).then (Object.cmp b d)

/-- Derived `Ord` of `Change`: path first, then change type. -/
def Change.cmp (a b : Change) : Ordering :=
  (cmpPath a.path b.path).then (ChangeType.cmp a.ctype b.ctype)

/-- Insert into an ascending duplicate-free list (`BTreeSet::insert`). -/
def insertSorted (x : Change) : List Change → List Change
  | [] => [x]
  | y :: ys =>
    match Change.cmp x y with
    | .lt => x :: y :: ys
    | .eq => y :: ys
    | .gt => y :: insertSorted x ys

/-- The contents of a `BTreeSet<Change>` after inserting `xs` in order:
ascending and duplicate-free. -/
def toSortedSet (xs : List Change) : List Change :=
  xs.foldl (fun acc x => insertSorted x acc) []

/-- Model of `state::State`: name ↦ set of paths, plus untracked extra paths. -/
structure State where
  inner : List (Str × List FsPath)
  extra : List FsPath
deriving DecidableEq

/-- Model of `State::to_changeset`: one change per (known name, path) pair. -/
def to_changeset (s : State) (objects : Str → Option Object)
    (func : Object → ChangeType) : List Change :=
  s.inner.foldl
    (fun acc x =>
      match objects x.1 with
      | some o => acc ++ x.2.map (fun p => ⟨p, func o⟩)
      | none => acc)
    []

/-- One step of the merge fold in `resolve`: popstack against the
previous change (Rust `Vec::pop` removes the last element). -/
def mergeStep (changes : List Change) (curr : Change) : List Change :=
  match changes.getLast? with
  | none => [curr]
  | some prev =>
    let rest := changes.dropLast
    if prev.path = curr.path then
      match prev.ctype, curr.ctype with
      | .Create o1, .Delete o2 =>
        if o1 = o2 then rest else rest ++ [⟨prev.path, .Modify o1 o2⟩]
      | .Ignore, _ => rest ++ [prev]
      | _, _ => rest
    else rest ++ [prev, curr]

/-- The clean-up fold of `resolve`. -/
def mergeFold (sorted : List Change) : List Change :=
  sorted.foldl mergeStep []

/-- Model of `state::resolve`: build the name intersection, emit `Create` for the
desired side, `Delete` for the actual side and `Ignore` for extras, sort
and deduplicate them, then merge per path. -/
def resolve (desire actual : State) (index : List Object) : List Change :=
  let keysD := desire.inner.map Prod.fst
  let keysA := actual.inner.map Prod.fst
  let objects_by_name : Str → Option Object := fun n =>
    if decide (n ∈ keysD) && decide (n ∈ keysA) then byName index n else none
  let cs :=
    to_changeset desire objects_by_name ChangeType.Create
      ++ to_changeset actual objects_by_name ChangeType.Delete
      ++ actual.extra.map (fun p => ⟨p, ChangeType.Ignore⟩)
  mergeFold (toSortedSet cs)

/-- Names claiming path `p` in the filtered manifest (the `dupes`
accumulation of `State::from_file`, per path). -/
def claimants (inner : List (Str × List FsPath)) (p : FsPath) : List Str :=
  (inner.filter (fun x => decide (p ∈ x.2))).map Prod.fst

/-- All paths listed in the filtered manifest. -/
def allPaths (inner : List (Str × List FsPath)) : List FsPath :=
  inner.flatMap Prod.snd

/-- The conflicting entries reported by `State::from_file`: every path
claimed by more than one name, with its claimant names. -/
def dupes (inner : List (Str × List FsPath)) : List (FsPath × List Str) :=
  (allPaths inner).dedup.filterMap
    (fun p => if 2 ≤ (claimants inner p).length then some (p, claimants inner p) else none)

/-- Model of `State::from_file`: keep only manifest entries whose name is known
(unknown names are dropped with a warning), then fail on any path
claimed by more than one surviving name. -/
def State.from_file (manifest : List (Str × List FsPath)) (names : List Str) :
    Except (List (FsPath × List Str)) State :=
  let inner := manifest.filter (fun x => decide (x.1 ∈ names))
  if (dupes inner).isEmpty then .ok ⟨inner, []⟩ else .error (dupes inner)

/-- One entry yielded by a directory walk. -/
structure FsEntry where
  path : FsPath
  ino : Nat
  isFile : Bool
deriving DecidableEq

/-- Model of `BTreeMap::entry(name).or_insert(BTreeSet::new()).insert(path)`. -/
def innerInsert : List (Str × List FsPath) → Str → FsPath → List (Str × List FsPath)
  | [], n, p => [(n, [p])]
  | (m, ps) :: rest, n, p =>
    if m = n then (m, if p ∈ ps then ps else ps ++ [p]) :: rest
    else (m, ps) :: innerInsert rest n p

/-- Model of `State::from_path`: for every regular file yielded by the walk, file
it under its object's name when its inode is indexed, otherwise under
`extra`. There is no filtering of the walk (in particular none for the
`.hoard` subtree). -/
def State.from_path (entries : List FsEntry) (index : List Object) : State :=
  entries.foldl
    (fun st e =>
      if e.isFile then
        match byIno index e.ino with
        | some o => { st with inner := innerInsert st.inner o.name e.path }
        | none => { st with extra := st.extra ++ [e.path] }
      else st)
    ⟨[], []⟩

/-- Model of `Path::starts_with`: component-wise prefix. -/
def pathStarts (pre p : FsPath) : Bool := decide (pre <+: p)

/-- Model of `is_empty_dir`: `p` is a directory in the live tree and has no
immediate child left. -/
def isEmptyDir (live : List FsEntry) (p : FsPath) : Bool :=
  (live.any (fun e => decide (e.path = p) && !e.isFile)) &&
    !(live.any (fun e => decide (p <+: e.path) && decide (e.path.length = p.length + 1)))

/-- The walk loop of `Repository::apply`. `inodes` and `paths` are the
two `HashSet`s of `apply`; the source initializes them empty and never
inserts into either. The walk iterates over the snapshot `entries`
(contents first), while `live` tracks what is still on disk for the
empty-directory test. Returns (deleted files, deleted dirs, remaining
live tree). -/
def applyGo (hoardDir : FsPath) (inodes : List Nat) (paths : List FsPath) :
    List FsEntry → List FsEntry → List FsPath × List FsPath × List FsEntry
  | [], live => ([], [], live)
  | e :: rest, live =>
    if pathStarts hoardDir e.path then applyGo hoardDir inodes paths rest live
    else
      let hit := decide (e.ino ∈ inodes) && !(decide (e.path ∈ paths))
      let live1 := if hit then live.filter (fun x => decide (x.path ≠ e.path)) else live
      let delF : List FsPath := if hit then [e.path] else []
      let emp := isEmptyDir live1 e.path
      let live2 := if emp then live1.filter (fun x => decide (x.path ≠ e.path)) else live1
      let delD : List FsPath := if emp then [e.path] else []
      let r := applyGo hoardDir inodes paths rest live2
      (delF ++ r.1, delD ++ r.2.1, r.2.2)

/-- Model of `hoard::Repository`. -/
structure Repository where
  root : FsPath

/-- Model of `Repository::apply` over the walked tree: both `HashSet`s start
empty (and, in the source, are never inserted into). -/
def Repository.apply (r : Repository) (tree : List FsEntry) :
    List FsPath × List FsPath × List FsEntry :=
  applyGo (r.root ++ [['.', 'h', 'o', 'a', 'r', 'd']]) [] [] tree tree

/-- Model of `Change::execute`: `Ignore` does nothing, `Delete` removes the file,
`Create` uses the raw `fs::hard_link`, and only `Modify` goes through the
`hoard::link` primitive (linking the second payload's path). -/
def Change.execute (fs : FS) (c : Change) : Option FS :=
  match c.ctype with
  | .Ignore => some fs
  | .Delete _ => removeFile fs c.path
  | .Create src => hard_link fs src.path c.path
  | .Modify _ n => (link fs n.path c.path).map (fun x => x.2)

/-! ## Helper lemmas -/

theorem cmpChar_self (a : Char) : cmpChar a a = .eq := by
  simp [cmpChar]

theorem cmpList_self (cmp : α → α → Ordering) (h : ∀ a, cmp a a = .eq) (l : List α) :
    cmpList cmp l l = .eq := by
  induction l with
  | nil => rfl
  | cons a as ih => simp [cmpList, h, ih]

theorem cmpStr_self (s : Str) : cmpStr s s = .eq :=
  cmpList_self cmpChar cmpChar_self s

theorem cmpPath_self (p : FsPath) : cmpPath p p = .eq :=
  cmpList_self cmpStr cmpStr_self p

theorem hexChars_length (bs : List Nat) : (hexChars bs).length = 2 * bs.length := by
  induction bs with
  | nil => rfl
  | cons b bs ih => simp [hexChars, ih]; omega

theorem hexDigitChar_hex (n : Nat) (h : n < 16) : isHexLowerChar (hexDigitChar n) = true := by
  revert h
  revert n
  decide

theorem hexChars_all (bs : List Nat) : (hexChars bs).all isHexLowerChar = true := by
  induction bs with
  | nil => rfl
  | cons b bs ih =>
    have h1 : b % 256 / 16 < 16 := by
      have : b % 256 < 256 := Nat.mod_lt _ (by norm_num)
      omega
    have h2 : b % 16 < 16 := Nat.mod_lt _ (by norm_num)
    simp [hexChars, List.all_cons, hexDigitChar_hex _ h1, hexDigitChar_hex _ h2, ih]

theorem isHex64_of_hash (sha : List Nat → List Nat) (content : List Nat)
    (h32 : (sha content).length = 32) : isHex64 (FileHash.of sha content).s = true := by
  simp [FileHash.of, isHex64, hexChars_length, h32, hexChars_all]

theorem isHex64_length {s : Str} (h : isHex64 s = true) : s.length = 64 := by
  simp [isHex64] at h
  exact h.1

theorem two_mem_le_length {l : List α} {x y : α} (hx : x ∈ l) (hy : y ∈ l) (hne : x ≠ y) :
    2 ≤ l.length := by
  match l with
  | [] => cases hx
  | [a] =>
    rw [List.mem_singleton] at hx hy
    exact absurd (hx.trans hy.symm) hne
  | a :: b :: t => simp

theorem lookupIno_cons_self (l : List (FsPath × Nat)) (p : FsPath) (i : Nat) :
    lookupIno ((p, i) :: l) p = some i := by
  simp [lookupIno]

theorem lookupIno_cons_ne (l : List (FsPath × Nat)) (p q : FsPath) (i : Nat) (h : q ≠ p) :
    lookupIno ((p, i) :: l) q = lookupIno l q := by
  simp [lookupIno, List.filter_cons, Ne.symm h]

theorem lookupIno_filter_self (l : List (FsPath × Nat)) (p : FsPath) :
    lookupIno (l.filter (fun x => decide (x.1 ≠ p))) p = none := by
  simp only [lookupIno, List.filter_filter]
  have : ∀ x : FsPath × Nat, (decide (x.1 = p) && decide (x.1 ≠ p)) = false := by
    intro x
    by_cases hx : x.1 = p <;> simp [hx]
  simp [this]

theorem lookupIno_filter_ne (l : List (FsPath × Nat)) (p q : FsPath) (h : q ≠ p) :
    lookupIno (l.filter (fun x => decide (x.1 ≠ p))) q = lookupIno l q := by
  simp only [lookupIno, List.filter_filter]
  have heq : List.filter (fun a => decide (a.1 = q) && decide (a.1 ≠ p)) l
      = List.filter (fun x => decide (x.1 = q)) l := by
    apply List.filter_congr
    intro x _
    by_cases hx : x.1 = q
    · simp [hx, h]
    · simp [hx]
  rw [heq]

theorem mem_addDirs (dirs ps : List FsPath) (q : FsPath) :
    q ∈ addDirs dirs ps ↔ q ∈ dirs ∨ q ∈ ps := by
  induction ps generalizing dirs with
  | nil => simp [addDirs]
  | cons p ps ih =>
    show q ∈ addDirs (if p ∈ dirs then dirs else dirs ++ [p]) ps ↔ _
    rw [ih]
    by_cases hp : p ∈ dirs
    · simp [hp]
      constructor
      · rintro (h | h)
        · exact Or.inl h
        · exact Or.inr (Or.inr h)
      · rintro (h | h | h)
        · exact Or.inl h
        · exact Or.inl (h ▸ hp)
        · exact Or.inr h
    · simp [hp, List.mem_append, or_assoc]

theorem addDirs_eq_self (dirs ps : List FsPath) (h : ∀ q ∈ ps, q ∈ dirs) :
    addDirs dirs ps = dirs := by
  induction ps with
  | nil => rfl
  | cons p ps ih =>
    show addDirs (if p ∈ dirs then dirs else dirs ++ [p]) ps = dirs
    rw [if_pos (h p (List.mem_cons_self p ps))]
    exact ih (fun q hq => h q (List.mem_cons_of_mem p hq))

theorem nil_mem_pathPrefixes (p : FsPath) : [] ∈ pathPrefixes p := by
  simp only [pathPrefixes, List.mem_map]
  exact ⟨0, by simp⟩

theorem pathPrefixes_length_le (p q : FsPath) (h : q ∈ pathPrefixes p) :
    q.length ≤ p.length := by
  simp only [pathPrefixes, List.mem_map, List.mem_range] at h
  obtain ⟨k, _, rfl⟩ := h
  simp [List.length_take]

theorem parentPiece_ne_dst (dst q : FsPath) (hq : q ∈ pathPrefixes dst.dropLast)
    (hne : dst ≠ []) : q ≠ dst := by
  intro h
  have h1 := pathPrefixes_length_le _ _ hq
  rw [h, List.length_dropLast] at h1
  have : 0 < dst.length := List.length_pos.mpr hne
  omega

theorem create_dir_all_self (fs : FS) (p : FsPath)
    (hf : ∀ q ∈ pathPrefixes p, (lookupFile fs q).isSome = false)
    (hdirs : ∀ q ∈ pathPrefixes p, q ∈ fs.dirs) :
    create_dir_all fs p = some fs := by
  unfold create_dir_all
  rw [if_neg]
  · rw [addDirs_eq_self fs.dirs (pathPrefixes p) hdirs]
  · intro hcon
    rw [List.any_eq_true] at hcon
    obtain ⟨q, hq, hqs⟩ := hcon
    rw [hf q hq] at hqs
    cases hqs

theorem link_second (fs : FS) (src dst : FsPath) (i : Nat)
    (hcd : create_dir_all fs dst.dropLast = some fs)
    (hs : lookupFile fs src = some i)
    (hd : lookupFile fs dst = some i) :
    link fs src dst = some (false, fs) := by
  unfold link
  rw [hcd]
  have hex : pathExists fs dst = true := by
    simp [pathExists, hd]
  simp [hex, hs, hd]

/-- Claim C7: the link primitive is idempotent — if `link src dst`
succeeds and leaves the filesystem in state `fs1`, then running the very
same call again succeeds, reports `created = false`, and leaves the
filesystem exactly in state `fs1` (in particular, when the destination
already exists with the source's inode nothing is mutated and the call
cannot fail). -/
theorem link_idempotence (fs : FS) (src dst : FsPath) (b : Bool) (fs1 : FS)
    (h : link fs src dst = some (b, fs1)) :
    link fs1 src dst = some (false, fs1) := by
  unfold link at h
  split at h
  · cases h
  · rename_i fsd hcd
    have hcd' := hcd
    unfold create_dir_all at hcd'
    split at hcd'
    · cases hcd'
    · rename_i hany
      injection hcd' with hfsd
      have hfiles_d : fsd.files = fs.files := by rw [← hfsd]
      have hdirs_d : ∀ q ∈ pathPrefixes dst.dropLast, q ∈ fsd.dirs := by
        intro q hq
        rw [← hfsd]
        simp only []
        exact (mem_addDirs _ _ _).mpr (Or.inr hq)
      have hnofile : ∀ q ∈ pathPrefixes dst.dropLast, (lookupFile fs q).isSome = false := by
        intro q hq
        cases hqs : (lookupFile fs q).isSome with
        | false => rfl
        | true => exact absurd (List.any_eq_true.mpr ⟨q, hq, hqs⟩) hany
      have hnofile_d : ∀ q ∈ pathPrefixes dst.dropLast, (lookupFile fsd q).isSome = false := by
        intro q hq
        rw [lookupFile, hfiles_d]
        exact hnofile q hq
      have hdirs1 : fsd.dirs = addDirs fs.dirs (pathPrefixes dst.dropLast) := by
        rw [← hfsd]
      split at h
      · rename_i hex
        split at h
        · rename_i si di hsrc hdst
          split at h
          · rename_i hii
            split at h
            · rename_i fs2 hrm
              have hfs2 : fs2 = { fsd with files := fsd.files.filter (fun x => decide (x.1 ≠ dst)) } := by
                unfold removeFile at hrm
                rw [hdst] at hrm
                injection hrm with h2
                exact h2.symm
              have hsd : src ≠ dst := by
                intro heq
                rw [heq, hdst] at hsrc
                injection hsrc with h3
                exact hii h3.symm
              have hdstnil : dst ≠ [] := by
                intro heq
                have hmem : ([] : FsPath) ∈ pathPrefixes dst.dropLast := nil_mem_pathPrefixes _
                have := hnofile_d [] hmem
                rw [← heq] at this
                rw [hdst] at this
                cases this
              cases hhl : hard_link fs2 src dst with
              | none => rw [hhl] at h; cases h
              | some fs3 =>
                rw [hhl] at h
                simp only [Option.map_some', Option.some.injEq, Prod.mk.injEq] at h
                obtain ⟨rfl, rfl⟩ := h
                unfold hard_link at hhl
                split at hhl
                · cases hhl
                · rename_i ino hsrc2
                  split at hhl
                  · cases hhl
                  · rename_i hex2
                    split at hhl
                    · rename_i hdir2
                      injection hhl with hfs3
                      rw [← hfs3]
                      apply link_second _ _ _ ino
                      · apply create_dir_all_self
                        · intro q hq
                          have hqne : q ≠ dst := parentPiece_ne_dst dst q hq hdstnil
                          show (lookupIno ((dst, ino) :: fs2.files) q).isSome = false
                          rw [lookupIno_cons_ne _ _ _ _ hqne]
                          rw [hfs2]
                          show (lookupIno (fsd.files.filter (fun x => decide (x.1 ≠ dst))) q).isSome = false
                          rw [lookupIno_filter_ne _ _ _ hqne]
                          exact hnofile_d q hq
                        · intro q hq
                          show q ∈ fs2.dirs
                          rw [hfs2]
                          exact hdirs_d q hq
                      · show lookupIno ((dst, ino) :: fs2.files) src = some ino
                        rw [lookupIno_cons_ne _ _ _ _ hsd]
                        exact hsrc2
                      · show lookupIno ((dst, ino) :: fs2.files) dst = some ino
                        exact lookupIno_cons_self _ _ _
                    · cases hhl
            · cases h
          · rename_i hii
            have hdi : si = di := not_not.mp hii
            injection h with h2
            injection h2 with hb hfs1
            rw [← hfs1]
            apply link_second _ _ _ si
            · exact create_dir_all_self _ _ hnofile_d hdirs_d
            · exact hsrc
            · rw [hdst, hdi]
        · exact Option.noConfusion h
      · rename_i hex
        have hexb : pathExists fsd dst = false := by
          cases hpe : pathExists fsd dst with
          | false => rfl
          | true => exact absurd hpe hex
        cases hhl : hard_link fsd src dst with
        | none => rw [hhl] at h; cases h
        | some fs2 =>
          rw [hhl] at h
          simp only [Option.map_some', Option.some.injEq, Prod.mk.injEq] at h
          obtain ⟨rfl, rfl⟩ := h
          unfold hard_link at hhl
          split at hhl
          · cases hhl
          · rename_i ino hsrc2
            split at hhl
            · cases hhl
            · rename_i hex2
              split at hhl
              · rename_i hdir2
                injection hhl with hfs2
                have hsd : src ≠ dst := by
                  intro heq
                  rw [heq] at hsrc2
                  have : pathExists fsd dst = true := by
                    simp [pathExists, hsrc2]
                  rw [this] at hexb
                  cases hexb
                have hdstnil : dst ≠ [] := by
                  intro heq
                  have hmem : ([] : FsPath) ∈ pathPrefixes dst.dropLast := nil_mem_pathPrefixes _
                  have h0 : ([] : FsPath) ∈ fsd.dirs := hdirs_d [] hmem
                  have : pathExists fsd dst = true := by
                    rw [heq]
                    simp [pathExists, h0]
                  rw [this] at hexb
                  cases hexb
                rw [← hfs2]
                apply link_second _ _ _ ino
                · apply create_dir_all_self
                  · intro q hq
                    have hqne : q ≠ dst := parentPiece_ne_dst dst q hq hdstnil
                    show (lookupIno ((dst, ino) :: fsd.files) q).isSome = false
                    rw [lookupIno_cons_ne _ _ _ _ hqne]
                    exact hnofile_d q hq
                  · intro q hq
                    show q ∈ fsd.dirs
                    exact hdirs_d q hq
                · show lookupIno ((dst, ino) :: fsd.files) src = some ino
                  rw [lookupIno_cons_ne _ _ _ _ hsd]
                  exact hsrc2
                · exact lookupIno_cons_self _ _ _
              · cases hhl

theorem to_changeset_singleton (n : Str) (p : FsPath) (extra : List FsPath)
    (objects : Str → Option Object) (func : Object → ChangeType) (o : Object)
    (h : objects n = some o) :
    to_changeset ⟨[(n, [p])], extra⟩ objects func = [⟨p, func o⟩] := by
  simp [to_changeset, h]

theorem insertSorted_delete_after_create (p : FsPath) (o1 o2 : Object) :
    insertSorted ⟨p, .Delete o2⟩ [⟨p, .Create o1⟩] =
      [⟨p, .Create o1⟩, ⟨p, .Delete o2⟩] := by
  have hcmp : Change.cmp ⟨p, .Delete o2⟩ ⟨p, .Create o1⟩ = .gt := by
    show (cmpPath p p).then (ChangeType.cmp (.Delete o2) (.Create o1)) = .gt
    rw [cmpPath_self]
    rfl
  unfold insertSorted
  rw [hcmp]
  rfl

theorem mergeFold_create_delete_same (p : FsPath) (o : Object) :
    mergeFold [⟨p, .Create o⟩, ⟨p, .Delete o⟩] = [] := by
  unfold mergeFold
  simp only [List.foldl_cons, List.foldl_nil]
  rw [show mergeStep [] ⟨p, .Create o⟩ = [⟨p, .Create o⟩] from rfl]
  simp [mergeStep]

/-- Claim C3: when the desired State and the actual State both map the
same name to the same single path, and the Name Index resolves that name
to one object O, reconciling produces no Change at all (in particular
none for that path): the naive Create/Delete pair for identical objects
cancels exactly. -/
theorem resolve_cancellation (n : Str) (p : FsPath) (O : Object) (index : List Object)
    (hO : byName index n = some O) :
    resolve ⟨[(n, [p])], []⟩ ⟨[(n, [p])], []⟩ index = [] := by
  simp only [resolve, List.map_cons, List.map_nil]
  rw [to_changeset_singleton _ _ _ _ _ O (by simp [hO]),
    to_changeset_singleton _ _ _ _ _ O (by simp [hO])]
  simp only [List.map_nil, List.append_nil, List.singleton_append]
  show mergeFold (toSortedSet [⟨p, .Create O⟩, ⟨p, .Delete O⟩]) = []
  unfold toSortedSet
  simp only [List.foldl_cons, List.foldl_nil]
  rw [show insertSorted ⟨p, .Create O⟩ [] = [⟨p, .Create O⟩] from rfl]
  rw [insertSorted_delete_after_create]
  exact mergeFold_create_delete_same p O

/-- Concrete object used by the cancellation witness. -/
def objCancel : Object := ⟨[['s'], ['x']], ⟨['a', 'a']⟩, ['n'], 1⟩

/-- Witness for C3: a concrete name, path, object and index satisfying
the hypothesis, with the conclusion obtained from the theorem. -/
theorem resolve_cancellation_witness :
    byName [objCancel] ['n'] = some objCancel ∧
      resolve ⟨[(['n'], [[['a']]])], []⟩ ⟨[(['n'], [[['a']]])], []⟩ [objCancel] = [] :=
  ⟨by decide, resolve_cancellation ['n'] [['a']] objCancel [objCancel] (by decide)⟩

/-- Desired-side object (name `n1`) of the modify scenario. -/
def objN : Object := ⟨[['s'], ['x']], ⟨['a', 'a']⟩, ['n', '1'], 1⟩

/-- Actual-side object (name `n2`) of the modify scenario. -/
def objO : Object := ⟨[['s'], ['y']], ⟨['b', 'b']⟩, ['n', '2'], 2⟩

/-- Desired State of the modify scenario: `n1 ↦ {a}`, `n2 ↦ {b}`. -/
def desireModify : State := ⟨[(['n', '1'], [[['a']]]), (['n', '2'], [[['b']]])], []⟩

/-- Actual State of the modify scenario: `n1 ↦ {c}`, `n2 ↦ {a}`. -/
def actualModify : State := ⟨[(['n', '1'], [[['c']]]), (['n', '2'], [[['a']]])], []⟩

/-- Claim C1: at the one reachable modify scenario — a `Create(objN)` and
a `Delete(objO)` colliding at path `a` — the merged diff holds exactly one
change at that path, and it is `Modify(objN, objO)`: the FIRST payload is
the object being created (the desired content) and the SECOND is the one
being deleted (the path's prior content), which is the reverse of the
claimed `Modify(O, N)` pairing (and of the `Modify(_old, new)` reading
that `Change::execute` gives the payloads). -/
theorem resolve_modify_order :
    resolve desireModify actualModify [objN, objO] =
      [⟨[['a']], .Modify objN objO⟩, ⟨[['b']], .Create objO⟩, ⟨[['c']], .Delete objN⟩] ∧
      ChangeType.Modify objN objO ≠ ChangeType.Modify objO objN := by
  constructor
  · decide
  · decide

theorem applyGo_deletes_no_files (hoardDir : FsPath) (ps : List FsPath)
    (entries : List FsEntry) : ∀ live, (applyGo hoardDir [] ps entries live).1 = [] := by
  induction entries with
  | nil => intro live; rfl
  | cons e rest ih =>
    intro live
    unfold applyGo
    by_cases hsw : pathStarts hoardDir e.path = true
    · rw [if_pos hsw]
      exact ih live
    · rw [if_neg hsw]
      simp only [List.not_mem_nil, decide_False, Bool.false_and, Bool.false_eq_true, if_false,
        List.nil_append]
      exact ih _

/-- Claim C2: `Repository::apply` never removes a single file, whatever
the walked tree looks like — the `inodes` and `paths` sets it consults
start empty and are never inserted into, so the deletion condition can
never hold. In particular the orphan hardlink duplicate of the claimed
scenario is not deleted. -/
theorem apply_removes_no_files (r : Repository) (tree : List FsEntry) :
    (Repository.apply r tree).1 = [] :=
  applyGo_deletes_no_files _ _ tree tree

/-- A regular file lying under `r/.hoard`, with a tracked inode. -/
def hoardFileEntry : FsEntry :=
  ⟨[['r'], ['.', 'h', 'o', 'a', 'r', 'd'], ['o', 'b'], ['a', 'b']], 7, true⟩

/-- Index entry whose inode matches `hoardFileEntry`. -/
def trackedObj : Object := ⟨[['s']], ⟨['h']⟩, ['n'], 7⟩

/-- Claim C4: `State::from_path` walks with no exclusion whatsoever: a
regular file lying under the store's reserved `.hoard` subtree IS added
to its object's name's path set (here the file under `r/.hoard` with a
tracked inode ends up in the path set of name `n`). -/
theorem from_path_includes_hoard_subtree :
    State.from_path [hoardFileEntry] [trackedObj] =
      ⟨[(['n'], [hoardFileEntry.path])], []⟩ ∧
      pathStarts ([['r']] ++ [['.', 'h', 'o', 'a', 'r', 'd']]) hoardFileEntry.path = true := by
  constructor
  · decide
  · decide

/-- Claim C5, counterexample: the path `ab/cc...c` (two components whose
concatenation `ab` ++ 62 × `c` is a valid 64-character hash) is NOT
returned as that hash: `FileHash::from_path` renders the whole path
(including the `/` separator), fails to parse it, and falls back to
hashing the content — here a digest of all-zero bytes, giving 64 × `0`. -/
theorem from_path_hash_counterexample :
    FileHash.from_path (fun _ => List.replicate 32 0)
        [['a', 'b'], List.replicate 62 'c'] [] = ⟨List.replicate 64 '0'⟩ ∧
      (⟨List.replicate 64 '0'⟩ : FileHash) ≠ ⟨['a', 'b'] ++ List.replicate 62 'c'⟩ ∧
      isHex64 (['a', 'b'] ++ List.replicate 62 'c') = true := by
  refine ⟨by decide, by decide, by decide⟩

/-- Claim C5, amended: `FileHash::from_path` parses the WHOLE rendered
path string as a hash, so for any path of at least two components (whose
rendering contains a `/`) it always falls back to hashing the content;
only a single-component path that is itself 64 lowercase-hex characters
is returned without reading the file. -/
theorem from_path_fallback (sha : List Nat → List Nat) (content : List Nat) :
    (∀ (a b : Str) (rest : FsPath),
        FileHash.from_path sha (a :: b :: rest) content = FileHash.of sha content) ∧
      (∀ s : Str, isHex64 s = true → FileHash.from_path sha [s] content = ⟨s⟩) := by
  constructor
  · intro a b rest
    have hp : pathToStr (a :: b :: rest) = a ++ '/' :: pathToStr (b :: rest) := rfl
    have hmem : '/' ∈ pathToStr (a :: b :: rest) := by
      rw [hp]
      exact List.mem_append_right a (List.mem_cons_self _ _)
    have hall : (pathToStr (a :: b :: rest)).all isHexLowerChar = false := by
      rw [← Bool.not_eq_true, List.all_eq_true]
      intro hcon
      have := hcon '/' hmem
      simp [isHexLowerChar] at this
    have hhex : isHex64 (pathToStr (a :: b :: rest)) = false := by
      unfold isHex64
      rw [hall, Bool.and_false]
    unfold FileHash.from_path FileHash.from_str
    rw [hhex]
    rfl
  · intro s hs
    have hp : pathToStr [s] = s := rfl
    unfold FileHash.from_path FileHash.from_str
    rw [hp, hs]
    rfl

/-- Witness for C5: the amended theorem applied to a concrete
64-character hex string. -/
theorem from_path_fallback_witness :
    isHex64 (List.replicate 64 'a') = true ∧
      FileHash.from_path (fun _ => List.replicate 32 0) [List.replicate 64 'a'] [] =
        ⟨List.replicate 64 'a'⟩ :=
  ⟨by decide,
    (from_path_fallback (fun _ => List.replicate 32 0) []).2 (List.replicate 64 'a') (by decide)⟩

theorem fileObject_new_store_path (st : ObjectStore) (h : FileHash)
    (hhex : isHex64 h.s = true) :
    FileObject.new (st.path ++ [h.s.take 2, h.s.drop 2]) = some h := by
  unfold FileObject.new
  rw [List.reverse_append]
  show FileHash.from_str (h.s.take 2 ++ h.s.drop 2) = some h
  rw [List.take_append_drop]
  unfold FileHash.from_str
  rw [hhex]
  rfl

/-- Claim C6: ingesting two sources with byte-identical content (neither
inode indexed, the content hash not yet stored) returns the same
ContentHash for both calls; the first call stores exactly one new
object, the second leaves the store untouched (so it creates no new
stored object and performs no new link into the store). -/
theorem put_dedup_by_content (sha : List Nat → List Nat) (st : ObjectStore)
    (ino1 ino2 : Nat) (content : List Nat)
    (h32 : (sha content).length = 32)
    (h1 : st.get_by_ino ino1 = none)
    (h2 : st.get_by_ino ino2 = none)
    (hne : ino2 ≠ ino1)
    (hh : st.get_by_hash (FileHash.of sha content) = none) :
    ∃ st1, ObjectStore.put sha st ino1 content = some (st1, FileHash.of sha content)
      ∧ ObjectStore.put sha st1 ino2 content = some (st1, FileHash.of sha content)
      ∧ st1.objects.length = st.objects.length + 1 := by
  have hhex : isHex64 (FileHash.of sha content).s = true := isHex64_of_hash sha content h32
  have hobj := fileObject_new_store_path st (FileHash.of sha content) hhex
  refine ⟨{ st with objects := st.objects ++ [(ino1, FileHash.of sha content)] }, ?_, ?_, by simp⟩
  · simp only [ObjectStore.put, h1, hh, hobj]
  · have h2' : ObjectStore.get_by_ino
        { st with objects := st.objects ++ [(ino1, FileHash.of sha content)] } ino2 = none := by
      unfold ObjectStore.get_by_ino at h2 ⊢
      rw [List.getLast?_eq_none_iff] at h2 ⊢
      show (st.objects ++ [(ino1, FileHash.of sha content)]).filter (fun x => decide (x.1 = ino2)) = []
      rw [List.filter_append, h2]
      simp [Ne.symm hne]
    have hh' : ObjectStore.get_by_hash
        { st with objects := st.objects ++ [(ino1, FileHash.of sha content)] }
          (FileHash.of sha content) = some (ino1, FileHash.of sha content) := by
      unfold ObjectStore.get_by_hash at hh ⊢
      rw [List.getLast?_eq_none_iff] at hh
      show ((st.objects ++ [(ino1, FileHash.of sha content)]).filter
          (fun x => decide (x.2 = FileHash.of sha content))).getLast? = _
      rw [List.filter_append, hh]
      simp
    simp only [ObjectStore.put, h2', hh']

/-- The all-zero digest used by concrete witnesses. -/
def shaZero : List Nat → List Nat := fun _ => List.replicate 32 0

/-- Witness for C6: a concrete empty store and two fresh inodes with the
same (empty) content. -/
theorem put_dedup_by_content_witness :
    ∃ st1, ObjectStore.put shaZero ⟨[['s']], []⟩ 1 [] = some (st1, FileHash.of shaZero [])
      ∧ ObjectStore.put shaZero st1 2 [] = some (st1, FileHash.of shaZero [])
      ∧ st1.objects.length = (⟨[['s']], []⟩ : ObjectStore).objects.length + 1 :=
  put_dedup_by_content shaZero ⟨[['s']], []⟩ 1 2 [] (by decide) (by decide) (by decide)
    (by decide) (by decide)

/-- Filesystem before the witness link call: one source file, root dir. -/
def fsLink0 : FS := ⟨[([['s']], 1)], [[]]⟩

/-- Filesystem after the witness link call: destination hardlinked. -/
def fsLink1 : FS := ⟨[([['d']], 1), ([['s']], 1)], [[]]⟩

/-- Witness for C7: a concrete first call that succeeds (creating the
link), and the theorem's conclusion for the second call. -/
theorem link_idempotence_witness :
    link fsLink0 [['s']] [['d']] = some (true, fsLink1) ∧
      link fsLink1 [['s']] [['d']] = some (false, fsLink1) :=
  ⟨by decide, link_idempotence fsLink0 [['s']] [['d']] true fsLink1 (by decide)⟩

/-- Filesystem where destination `d` already exists with the source
object's inode. -/
def fsCreate : FS := ⟨[([['o']], 5), ([['d']], 5)], [[]]⟩

/-- Object stored at `o` with inode 5. -/
def objCreate : Object := ⟨[['o']], ⟨['h']⟩, ['n'], 5⟩

/-- Claim C9, counterexample: executing `Create` at a destination that
already exists with the SAME inode as the source fails (raw
`fs::hard_link`), whereas the Object Store's link primitive on the same
source and destination succeeds as a no-op — so `Change::execute` does
NOT give `Create` the link primitive's semantics. -/
theorem execute_create_counterexample :
    Change.execute fsCreate ⟨[['d']], .Create objCreate⟩ = none ∧
      link fsCreate [['o']] [['d']] = some (false, fsCreate) := by
  refine ⟨by decide, by decide⟩

/-- Claim C9, amended: `Change::execute` on `Create(object)` performs the
raw hard-link from the object's path: it fails whenever the change's path
already exists (even as a hardlink with the same inode), it never creates
missing parent directories, and when the path is absent, its parent
directory exists and the object's path is a regular file with inode `i`,
it adds exactly the hardlink `path ↦ i`. -/
theorem execute_create_raw (fs : FS) (o : Object) (p : FsPath) :
    (pathExists fs p = true → Change.execute fs ⟨p, .Create o⟩ = none) ∧
      (∀ i, lookupFile fs o.path = some i → pathExists fs p = false →
        p.dropLast ∈ fs.dirs →
        Change.execute fs ⟨p, .Create o⟩ = some { fs with files := (p, i) :: fs.files }) := by
  constructor
  · intro hex
    show hard_link fs o.path p = none
    unfold hard_link
    cases hsrc : lookupFile fs o.path with
    | none => rfl
    | some ino => simp [hex]
  · intro i hsrc hex hdir
    show hard_link fs o.path p = _
    unfold hard_link
    rw [hsrc, hex]
    simp [hdir]

/-- Witness for C9's amended theorem: both conjuncts discharged on a
concrete filesystem. -/
theorem execute_create_raw_witness :
    Change.execute fsCreate ⟨[['d']], .Create objCreate⟩ = none ∧
      Change.execute ⟨[([['o']], 5)], [[]]⟩ ⟨[['d']], .Create objCreate⟩ =
        some ⟨[([['d']], 5), ([['o']], 5)], [[]]⟩ :=
  ⟨(execute_create_raw fsCreate objCreate [['d']]).1 (by decide),
    (execute_create_raw ⟨[([['o']], 5)], [[]]⟩ objCreate [['d']]).2 5 (by decide) (by decide)
      (by decide)⟩

/-- Claim C10: every FileHash obtainable through the public constructors
(`of`, `from_str`, `from_path`) is exactly 64 lowercase hexadecimal
characters (`isHex64`), and on such a value `as_path` yields the
2-character prefix, a `/`, and the remaining 62 characters. The SHA-256
digest is abstracted as any function returning 32 bytes. -/
theorem filehash_constructor_invariant (sha : List Nat → List Nat)
    (h32 : ∀ c, (sha c).length = 32) :
    (∀ content, isHex64 (FileHash.of sha content).s = true)
    ∧ (∀ s h, FileHash.from_str s = some h → isHex64 h.s = true)
    ∧ (∀ p content, isHex64 (FileHash.from_path sha p content).s = true)
    ∧ (∀ h : FileHash, isHex64 h.s = true →
        FileHash.as_path h = h.s.take 2 ++ '/' :: h.s.drop 2
        ∧ (h.s.take 2).length = 2 ∧ (h.s.drop 2).length = 62) := by
  have hof : ∀ content, isHex64 (FileHash.of sha content).s = true :=
    fun content => isHex64_of_hash sha content (h32 content)
  have hfs : ∀ s h, FileHash.from_str s = some h → isHex64 h.s = true := by
    intro s h hsh
    unfold FileHash.from_str at hsh
    split at hsh
    · rename_i hhex
      injection hsh with he
      rw [← he]
      exact hhex
    · cases hsh
  refine ⟨hof, hfs, ?_, ?_⟩
  · intro p content
    cases hfp : FileHash.from_str (pathToStr p) with
    | some h =>
      have heq : FileHash.from_path sha p content = h := by
        unfold FileHash.from_path
        rw [hfp]
      rw [heq]
      exact hfs _ _ hfp
    | none =>
      have heq : FileHash.from_path sha p content = FileHash.of sha content := by
        unfold FileHash.from_path
        rw [hfp]
      rw [heq]
      exact hof content
  · intro h hh
    have hlen : h.s.length = 64 := isHex64_length hh
    refine ⟨rfl, ?_, ?_⟩
    · simp [List.length_take, hlen]
    · simp [List.length_drop, hlen]

/-- Witness for C10: the invariant instantiated at the all-zero digest
and empty content. -/
theorem filehash_constructor_invariant_witness :
    (∀ c, (shaZero c).length = 32) ∧ isHex64 (FileHash.of shaZero []).s = true :=
  ⟨fun c => by simp [shaZero],
    (filehash_constructor_invariant shaZero (fun c => by simp [shaZero])).1 []⟩

theorem claimants_nodup (inner : List (Str × List FsPath)) (p : FsPath)
    (hnd : (inner.map Prod.fst).Nodup) : (claimants inner p).Nodup :=
  hnd.sublist ((List.filter_sublist inner).map Prod.fst)

theorem claimants_length (inner : List (Str × List FsPath)) (p : FsPath) :
    (claimants inner p).length = (inner.filter (fun x => decide (p ∈ x.2))).length :=
  List.length_map _ _

theorem conflict_of_two_le (inner : List (Str × List FsPath)) (p : FsPath)
    (hnd : (inner.map Prod.fst).Nodup) (h2 : 2 ≤ (claimants inner p).length) :
    ∃ e1 e2, e1 ∈ inner ∧ e2 ∈ inner ∧ e1.1 ≠ e2.1 ∧ p ∈ e1.2 ∧ p ∈ e2.2 := by
  have hcn : (claimants inner p).Nodup := claimants_nodup inner p hnd
  cases hl : inner.filter (fun x => decide (p ∈ x.2)) with
  | nil =>
    rw [claimants_length, hl] at h2
    simp at h2
  | cons a l1 =>
    cases hl2 : l1 with
    | nil =>
      rw [claimants_length, hl, hl2] at h2
      simp at h2
    | cons b t =>
      have hfl : inner.filter (fun x => decide (p ∈ x.2)) = a :: b :: t := by
        rw [hl, hl2]
      have ha : a ∈ inner.filter (fun x => decide (p ∈ x.2)) := by
        rw [hfl]
        exact List.mem_cons_self _ _
      have hb : b ∈ inner.filter (fun x => decide (p ∈ x.2)) := by
        rw [hfl]
        exact List.mem_cons_of_mem _ (List.mem_cons_self _ _)
      obtain ⟨ha1, ha2⟩ := List.mem_filter.mp ha
      obtain ⟨hb1, hb2⟩ := List.mem_filter.mp hb
      have hcn' : (a.1 :: b.1 :: t.map Prod.fst).Nodup := by
        rw [claimants, hfl] at hcn
        exact hcn
      have hne : a.1 ≠ b.1 := by
        intro hh
        exact (List.nodup_cons.mp hcn').1 (hh ▸ List.mem_cons_self _ _)
      exact ⟨a, b, ha1, hb1, hne, of_decide_eq_true ha2, of_decide_eq_true hb2⟩

theorem two_le_of_conflict (inner : List (Str × List FsPath)) (p : FsPath)
    (e1 e2 : Str × List FsPath) (h1 : e1 ∈ inner) (h2 : e2 ∈ inner)
    (hne : e1.1 ≠ e2.1) (hp1 : p ∈ e1.2) (hp2 : p ∈ e2.2) :
    2 ≤ (claimants inner p).length := by
  have m1 : e1 ∈ inner.filter (fun x => decide (p ∈ x.2)) :=
    List.mem_filter.mpr ⟨h1, decide_eq_true hp1⟩
  have m2 : e2 ∈ inner.filter (fun x => decide (p ∈ x.2)) :=
    List.mem_filter.mpr ⟨h2, decide_eq_true hp2⟩
  have hne' : e1 ≠ e2 := by
    intro hh
    exact hne (by rw [hh])
  rw [claimants_length]
  exact two_mem_le_length m1 m2 hne'

theorem mem_dupes_of_two_le (inner : List (Str × List FsPath)) (p : FsPath)
    (h2 : 2 ≤ (claimants inner p).length) :
    (p, claimants inner p) ∈ dupes inner := by
  have hflen : 0 < (inner.filter (fun x => decide (p ∈ x.2))).length := by
    have := claimants_length inner p
    omega
  obtain ⟨e, he⟩ := List.exists_mem_of_ne_nil _ (List.length_pos.mp hflen)
  obtain ⟨he1, he2⟩ := List.mem_filter.mp he
  have hpall : p ∈ (allPaths inner).dedup :=
    List.mem_dedup.mpr (List.mem_flatMap.mpr ⟨e, he1, of_decide_eq_true he2⟩)
  rw [dupes, List.mem_filterMap]
  exact ⟨p, hpall, by rw [if_pos h2]⟩

theorem dupes_ne_nil_iff (inner : List (Str × List FsPath))
    (hnd : (inner.map Prod.fst).Nodup) :
    dupes inner ≠ [] ↔
      ∃ p e1 e2, e1 ∈ inner ∧ e2 ∈ inner ∧ e1.1 ≠ e2.1 ∧ p ∈ e1.2 ∧ p ∈ e2.2 := by
  constructor
  · intro hne
    obtain ⟨x, hx⟩ := List.exists_mem_of_ne_nil _ hne
    rw [dupes, List.mem_filterMap] at hx
    obtain ⟨p, hp, hif⟩ := hx
    by_cases h2 : 2 ≤ (claimants inner p).length
    · obtain ⟨e1, e2, m1, m2, hne12, hp1, hp2⟩ := conflict_of_two_le inner p hnd h2
      exact ⟨p, e1, e2, m1, m2, hne12, hp1, hp2⟩
    · rw [if_neg h2] at hif
      cases hif
  · rintro ⟨p, e1, e2, m1, m2, hne12, hp1, hp2⟩
    have h2 := two_le_of_conflict inner p e1 e2 m1 m2 hne12 hp1 hp2
    exact List.ne_nil_of_mem (mem_dupes_of_two_le inner p h2)

/-- Claim C8: `State::from_file` first drops the manifest entries whose
name is unknown, then fails if and only if some single path is claimed
by more than one surviving name; on failure every conflicting path is
reported together with its claimant names, and on success the state is
exactly the filtered manifest (with an empty extra set). The manifest is
a JSON object, so its names are distinct. -/
theorem from_file_ambiguity (manifest : List (Str × List FsPath)) (names : List Str)
    (hnodup : (manifest.map Prod.fst).Nodup) :
    ((∃ d, State.from_file manifest names = .error d) ↔
      ∃ p e1 e2, e1 ∈ manifest.filter (fun x => decide (x.1 ∈ names))
        ∧ e2 ∈ manifest.filter (fun x => decide (x.1 ∈ names))
        ∧ e1.1 ≠ e2.1 ∧ p ∈ e1.2 ∧ p ∈ e2.2)
    ∧ (∀ d, State.from_file manifest names = .error d →
        ∀ p, 2 ≤ (claimants (manifest.filter (fun x => decide (x.1 ∈ names))) p).length →
          (p, claimants (manifest.filter (fun x => decide (x.1 ∈ names))) p) ∈ d)
    ∧ (∀ s, State.from_file manifest names = .ok s →
        s.inner = manifest.filter (fun x => decide (x.1 ∈ names)) ∧ s.extra = []) := by
  have hnd_inner : ((manifest.filter (fun x => decide (x.1 ∈ names))).map Prod.fst).Nodup :=
    hnodup.sublist ((List.filter_sublist manifest).map Prod.fst)
  refine ⟨⟨?_, ?_⟩, ?_, ?_⟩
  · rintro ⟨d, hd⟩
    simp only [State.from_file] at hd
    split at hd
    · cases hd
    · rename_i hemp
      have hne : dupes (manifest.filter (fun x => decide (x.1 ∈ names))) ≠ [] := by
        intro hnil
        exact hemp (by rw [hnil]; rfl)
      exact (dupes_ne_nil_iff _ hnd_inner).mp hne
  · intro hex
    have hne : dupes (manifest.filter (fun x => decide (x.1 ∈ names))) ≠ [] :=
      (dupes_ne_nil_iff _ hnd_inner).mpr hex
    simp only [State.from_file]
    split
    · rename_i hemp
      exact absurd (List.isEmpty_iff.mp hemp) hne
    · exact ⟨_, rfl⟩
  · intro d hd p h2
    simp only [State.from_file] at hd
    split at hd
    · cases hd
    · injection hd with hd'
      rw [← hd']
      exact mem_dupes_of_two_le _ p h2
  · intro s hs
    simp only [State.from_file] at hs
    split at hs
    · injection hs with hs'
      rw [← hs']
      exact ⟨rfl, rfl⟩
    · cases hs

/-- Witness for C8: a concrete two-name manifest claiming the same path
is rejected. -/
theorem from_file_ambiguity_witness :
    ∃ d, State.from_file [((['a']), [[['p']]]), ((['b']), [[['p']]])] [['a'], ['b']] =
      .error d :=
  (from_file_ambiguity [((['a']), [[['p']]]), ((['b']), [[['p']]])] [['a'], ['b']]
      (by decide)).1.mpr
    ⟨[['p']], (['a'], [[['p']]]), (['b'], [[['p']]]), by decide, by decide, by decide,
      by decide, by decide⟩
